import Mathlib

/-!
Verification of the YAML-to-configuration-tree loader
(`src/conf-yaml-loader.c`).

The loader consumes a linear stream of YAML events and populates a
hierarchical configuration tree.  We embed the event stream as a `List
Event`, the configuration nodes as a functional tree `ConfNode`, and the
recursive routine `ConfYamlParse` as a fuel-indexed function
`ConfYamlParseLoop` returning `Option (Bool × ConfNode × List Event)`:

* `none`           — the fuel ran out (a model artifact; any run of the C
                     code corresponds to a run with sufficient fuel);
* `some (ok, p, rest)` — the invocation returned (`ok = true` for the C
                     return value `0`, `ok = false` for `-1`), with `p`
                     the invocation's parent node after all in-place
                     mutations and `rest` the events not yet consumed.

A parse error of the underlying `yaml_parser_parse` is modelled by the
event list running out: the C code returns `-1` there, and any further
fetch from the failed parser fails again, which the empty list also does.
-/

namespace ConfYaml

/-- A YAML event as delivered by the event source.  `docStart` carries the
optional `(major, minor)` version directive.  Events the C code ignores
(`STREAM_START`, `DOCUMENT_END`, aliases) are collapsed into `other`. -/
inductive Event : Type where
  | docStart (ver : Option (Nat × Nat))
  | scalar (s : String)
  | seqStart
  | seqEnd
  | mapStart
  | mapEnd
  | streamEnd
  | other
  deriving DecidableEq, Repr

/-- A configuration node: `name`, optional scalar `val`, the `is_seq` and
`allow_override` flags, and the ordered child list (insertion order). -/
inductive ConfNode : Type where
  | mk (name : String) (val : Option String) (is_seq : Bool)
       (allow_override : Bool) (children : List ConfNode)

namespace ConfNode

def name : ConfNode → String
  | mk n _ _ _ _ => n

def val : ConfNode → Option String
  | mk _ v _ _ _ => v

def is_seq : ConfNode → Bool
  | mk _ _ s _ _ => s

def allow_override : ConfNode → Bool
  | mk _ _ _ a _ => a

def children : ConfNode → List ConfNode
  | mk _ _ _ _ c => c

/-- Replace the scalar value. -/
def withVal : ConfNode → String → ConfNode
  | mk n _ s a c, v => mk n (some v) s a c

/-- Replace the child list. -/
def withChildren : ConfNode → List ConfNode → ConfNode
  | mk n v s a _, c => mk n v s a c

@[simp] theorem name_mk (n v s a c) : (mk n v s a c).name = n := rfl
@[simp] theorem val_mk (n v s a c) : (mk n v s a c).val = v := rfl
@[simp] theorem is_seq_mk (n v s a c) : (mk n v s a c).is_seq = s := rfl
@[simp] theorem allow_override_mk (n v s a c) :
    (mk n v s a c).allow_override = a := rfl
@[simp] theorem children_mk (n v s a c) : (mk n v s a c).children = c := rfl

@[simp] theorem name_withVal (p : ConfNode) (v : String) :
    (p.withVal v).name = p.name := by cases p; rfl
@[simp] theorem val_withVal (p : ConfNode) (v : String) :
    (p.withVal v).val = some v := by cases p; rfl
@[simp] theorem is_seq_withVal (p : ConfNode) (v : String) :
    (p.withVal v).is_seq = p.is_seq := by cases p; rfl
@[simp] theorem allow_override_withVal (p : ConfNode) (v : String) :
    (p.withVal v).allow_override = p.allow_override := by cases p; rfl
@[simp] theorem children_withVal (p : ConfNode) (v : String) :
    (p.withVal v).children = p.children := by cases p; rfl

@[simp] theorem name_withChildren (p : ConfNode) (c : List ConfNode) :
    (p.withChildren c).name = p.name := by cases p; rfl
@[simp] theorem val_withChildren (p : ConfNode) (c : List ConfNode) :
    (p.withChildren c).val = p.val := by cases p; rfl
@[simp] theorem is_seq_withChildren (p : ConfNode) (c : List ConfNode) :
    (p.withChildren c).is_seq = p.is_seq := by cases p; rfl
@[simp] theorem allow_override_withChildren (p : ConfNode) (c : List ConfNode) :
    (p.withChildren c).allow_override = p.allow_override := by cases p; rfl
@[simp] theorem children_withChildren (p : ConfNode) (c : List ConfNode) :
    (p.withChildren c).children = c := by cases p; rfl

end ConfNode

/-- Modelled from the spec: `new_node()` of the external tree module
(`ConfNodeNew` in `conf.c`, which is not part of this repository snapshot)
returns a fresh detached node with `allow_override = false`,
`is_seq = false`, empty value and empty children; the builder then fills
in the name. -/
def ConfNodeNew (nm : String) : ConfNode :=
  ConfNode.mk nm none false false []

/-- Placeholder node used only to give the cursor a total meaning in
states the C code never reaches (cursor on last child of an empty list). -/
def defaultNode : ConfNode := ConfNode.mk "" none false false []

/-- Modelled from the spec: `lookup_child(parent, name)` of the external
tree module (`ConfNodeLookupChild` in `conf.c`, not in this snapshot)
returns the first child with matching name, or none. -/
def ConfNodeLookupChild (p : ConfNode) (nm : String) : Option ConfNode :=
  p.children.find? (fun c => c.name == nm)

/-- Modelled from the spec: `remove(node)` of the external tree module
(`ConfNodeRemove` in `conf.c`, not in this snapshot) detaches the node
from its parent's child list.  The builder always applies it to the node
returned by `lookup_child`, i.e. the first child with the given name. -/
def removeFirstNamed (nm : String) : List ConfNode → List ConfNode
  | [] => []
  | c :: cs => if c.name == nm then cs else c :: removeFirstNamed nm cs

/-- The `node` cursor of `ConfYamlParse`: the parent itself while
`curIsParent = true`, the most recently appended child otherwise. -/
def curGet (p : ConfNode) (curIsParent : Bool) : ConfNode :=
  if curIsParent then p else p.children.getLastD defaultNode

/-- Write back through the cursor: replace the parent, or its last child. -/
def curPut (p : ConfNode) (curIsParent : Bool) (n : ConfNode) : ConfNode :=
  if curIsParent then n else p.withChildren (p.children.dropLast ++ [n])

/-- Write `node->val = strdup(value)` through the cursor. -/
def curSetVal (p : ConfNode) (curIsParent : Bool) (v : String) : ConfNode :=
  curPut p curIsParent ((curGet p curIsParent).withVal v)

/-- The key/value phase flag (`enum conf_state`): `CONF_KEY` / `CONF_VAL`. -/
inductive ConfState : Type where
  | key
  | val
  deriving DecidableEq, Repr

/-- One invocation of `ConfYamlParse` (the while-loop), embedded from
`src/conf-yaml-loader.c` lines 39-160.  Parameters mirror the C locals:
`p` is `parent` (with all mutations applied so far), `cur` tells whether
the `node` cursor equals `parent` (it otherwise points at the last
appended child), `inseq`, `st` (`state`) and `idx` (`seq_idx`) are as in
the source.  Fuel decreases at every loop iteration and recursion. -/
def ConfYamlParseLoop :
    Nat → List Event → ConfNode → Bool → Bool → ConfState → Nat →
    Option (Bool × ConfNode × List Event)
  | 0, _, _, _, _, _, _ => none
  | _ + 1, [], p, _, _, _, _ =>
      -- `yaml_parser_parse` failed: print the problem, return -1.
      some (false, p, [])
  | fuel + 1, e :: evs, p, cur, inseq, st, idx =>
      match e with
      | Event.docStart ver =>
          match ver with
          | none => some (false, p, evs)          -- missing version: goto fail
          | some (major, minor) =>
              if major = 1 ∧ minor = 1 then
                ConfYamlParseLoop fuel evs p cur inseq st idx
              else
                some (false, p, evs)              -- bad version: goto fail
      | Event.scalar value =>
          if inseq then
            -- new child named by the counter, val = scalar text
            let seqNode := ConfNode.mk (toString idx) (some value) false false []
            ConfYamlParseLoop fuel evs
              (p.withChildren (p.children ++ [seqNode])) cur inseq st (idx + 1)
          else
            match st with
            | ConfState.key =>
                match ConfNodeLookupChild p value with
                | some n0 =>
                    if n0.allow_override then
                      -- remove the old node, then fall through to creation
                      let p1 := p.withChildren (removeFirstNamed value p.children)
                      let p2 := if p1.is_seq ∧ p1.val = none
                                then p1.withVal value else p1
                      ConfYamlParseLoop fuel evs
                        (p2.withChildren (p2.children ++ [ConfNodeNew value]))
                        false inseq ConfState.val idx
                    else
                      -- override locked: skip, consume the next scalar
                      ConfYamlParseLoop fuel evs p cur inseq ConfState.val idx
                | none =>
                    let p2 := if p.is_seq ∧ p.val = none
                              then p.withVal value else p
                    ConfYamlParseLoop fuel evs
                      (p2.withChildren (p2.children ++ [ConfNodeNew value]))
                      false inseq ConfState.val idx
            | ConfState.val =>
                ConfYamlParseLoop fuel evs (curSetVal p cur value)
                  cur inseq ConfState.key idx
      | Event.seqStart =>
          -- recurse on the cursor in sequence mode; failure goes to fail
          match ConfYamlParseLoop fuel evs (curGet p cur) true true
                  ConfState.key 0 with
          | none => none
          | some (ok, cn, rem) =>
              if ok then
                ConfYamlParseLoop fuel rem (curPut p cur cn) cur inseq
                  ConfState.key idx
              else
                some (false, curPut p cur cn, rem)
      | Event.seqEnd => some (true, p, evs)
      | Event.mapStart =>
          if inseq then
            -- indexed element node with is_seq set; recursion result unchecked
            match ConfYamlParseLoop fuel evs
                    (ConfNode.mk (toString idx) none true false [])
                    true false ConfState.key 0 with
            | none => none
            | some (_, sn, rem) =>
                ConfYamlParseLoop fuel rem
                  (p.withChildren (p.children ++ [sn])) cur inseq
                  ConfState.key (idx + 1)
          else
            -- recurse on the cursor; recursion result unchecked
            match ConfYamlParseLoop fuel evs (curGet p cur) true false
                    ConfState.key 0 with
            | none => none
            | some (_, cn, rem) =>
                ConfYamlParseLoop fuel rem (curPut p cur cn) cur inseq
                  ConfState.key idx
      | Event.mapEnd => some (true, p, evs)
      | Event.streamEnd => some (true, p, evs)
      | Event.other =>
          ConfYamlParseLoop fuel evs p cur inseq st idx

/-- Entry `ConfYamlParse(parser, parent, inseq)`: locals initialized as in the
source (`node = parent`, `state = 0`, `seq_idx = 0`). -/
def ConfYamlParse (fuel : Nat) (events : List Event) (parent : ConfNode)
    (inseq : Bool) : Option (Bool × ConfNode × List Event) :=
  ConfYamlParseLoop fuel events parent true inseq ConfState.key 0

/-- Enough fuel for any run over the given events: every loop iteration
consumes an event or terminates the call, and every recursion entry is
paired with at least one consumed event. -/
def enoughFuel (events : List Event) : Nat :=
  2 * events.length + 2

/-- Entry `ConfYamlLoadString`: fetch the root, parse, return `0` or `-1`
together with the mutated tree (the C function mutates the process-wide
tree in place; we return it).  The root node is passed explicitly, as the
external tree module's `ConfGetRootNode` is outside this snapshot. -/
def ConfYamlLoadString (events : List Event) (root : ConfNode) :
    Int × ConfNode :=
  match ConfYamlParse (enoughFuel events) events root false with
  | some (true, r, _) => (0, r)
  | some (false, r, _) => (-1, r)
  | none => (-1, root)

/-! ### Concrete event streams used by the claims -/

/-- The event stream libyaml produces for the `ConfYamlLoggingOutputTest`
input: a `logging.output` sequence of two mappings. -/
def loggingEvents : List Event :=
  [Event.other, Event.docStart (some (1, 1)), Event.mapStart,
   Event.scalar "logging", Event.mapStart, Event.scalar "output",
   Event.seqStart,
   Event.mapStart, Event.scalar "interface", Event.scalar "console",
     Event.scalar "log-level", Event.scalar "error", Event.mapEnd,
   Event.mapStart, Event.scalar "interface", Event.scalar "syslog",
     Event.scalar "facility", Event.scalar "local4",
     Event.scalar "log-level", Event.scalar "info", Event.mapEnd,
   Event.seqEnd, Event.mapEnd, Event.mapEnd, Event.other, Event.streamEnd]

/-- An empty pre-existing root node. -/
def emptyRoot : ConfNode := ConfNode.mk "" none false false []

/-- The tree the loader builds from `loggingEvents`. -/
def loggingExpected : ConfNode :=
  ConfNode.mk "" none false false
    [ConfNode.mk "logging" none false false
      [ConfNode.mk "output" none false false
        [ConfNode.mk "0" (some "interface") true false
          [ConfNode.mk "interface" (some "console") false false [],
           ConfNode.mk "log-level" (some "error") false false []],
         ConfNode.mk "1" (some "interface") true false
          [ConfNode.mk "interface" (some "syslog") false false [],
           ConfNode.mk "facility" (some "local4") false false [],
           ConfNode.mk "log-level" (some "info") false false []]]]]

/-- C7: loading the logging/output document succeeds and produces the
node at path `logging.output` with exactly two children `"0"` and `"1"`,
whose children are `interface=console`, `log-level=error` resp.
`interface=syslog`, `facility=local4`, `log-level=info`, in order. -/
theorem logging_output_scenario_c7 :
    ConfYamlLoadString loggingEvents emptyRoot = (0, loggingExpected) := by
  rfl

/-! ### C1: the recursion target of `MAPPING_START` outside a sequence -/

/-- Modelled from the spec: a variant of `ConfYamlParseLoop` that differs
only in the `MAPPING_START` branch outside a sequence, where — following
the claim's words — it recurses on the invocation's *parent* instead of
the `node` cursor.  It exists only to be compared against the embedding
of the source. -/
def ConfYamlParseLoopC1Claim :
    Nat → List Event → ConfNode → Bool → Bool → ConfState → Nat →
    Option (Bool × ConfNode × List Event)
  | 0, _, _, _, _, _, _ => none
  | _ + 1, [], p, _, _, _, _ => some (false, p, [])
  | fuel + 1, e :: evs, p, cur, inseq, st, idx =>
      match e with
      | Event.docStart ver =>
          match ver with
          | none => some (false, p, evs)
          | some (major, minor) =>
              if major = 1 ∧ minor = 1 then
                ConfYamlParseLoopC1Claim fuel evs p cur inseq st idx
              else
                some (false, p, evs)
      | Event.scalar value =>
          if inseq then
            let seqNode := ConfNode.mk (toString idx) (some value) false false []
            ConfYamlParseLoopC1Claim fuel evs
              (p.withChildren (p.children ++ [seqNode])) cur inseq st (idx + 1)
          else
            match st with
            | ConfState.key =>
                match ConfNodeLookupChild p value with
                | some n0 =>
                    if n0.allow_override then
                      let p1 := p.withChildren (removeFirstNamed value p.children)
                      let p2 := if p1.is_seq ∧ p1.val = none
                                then p1.withVal value else p1
                      ConfYamlParseLoopC1Claim fuel evs
                        (p2.withChildren (p2.children ++ [ConfNodeNew value]))
                        false inseq ConfState.val idx
                    else
                      ConfYamlParseLoopC1Claim fuel evs p cur inseq
                        ConfState.val idx
                | none =>
                    let p2 := if p.is_seq ∧ p.val = none
                              then p.withVal value else p
                    ConfYamlParseLoopC1Claim fuel evs
                      (p2.withChildren (p2.children ++ [ConfNodeNew value]))
                      false inseq ConfState.val idx
            | ConfState.val =>
                ConfYamlParseLoopC1Claim fuel evs (curSetVal p cur value)
                  cur inseq ConfState.key idx
      | Event.seqStart =>
          match ConfYamlParseLoopC1Claim fuel evs (curGet p cur) true true
                  ConfState.key 0 with
          | none => none
          | some (ok, cn, rem) =>
              if ok then
                ConfYamlParseLoopC1Claim fuel rem (curPut p cur cn) cur inseq
                  ConfState.key idx
              else
                some (false, curPut p cur cn, rem)
      | Event.seqEnd => some (true, p, evs)
      | Event.mapStart =>
          if inseq then
            match ConfYamlParseLoopC1Claim fuel evs
                    (ConfNode.mk (toString idx) none true false [])
                    true false ConfState.key 0 with
            | none => none
            | some (_, sn, rem) =>
                ConfYamlParseLoopC1Claim fuel rem
                  (p.withChildren (p.children ++ [sn])) cur inseq
                  ConfState.key (idx + 1)
          else
            -- the claim's reading: recurse on the parent, not the cursor
            match ConfYamlParseLoopC1Claim fuel evs p true false
                    ConfState.key 0 with
            | none => none
            | some (_, pn, rem) =>
                ConfYamlParseLoopC1Claim fuel rem pn cur inseq
                  ConfState.key idx
      | Event.mapEnd => some (true, p, evs)
      | Event.streamEnd => some (true, p, evs)
      | Event.other =>
          ConfYamlParseLoopC1Claim fuel evs p cur inseq st idx

/-- Events for the C1 counterexample: a key `a` whose value is a nested
mapping `{b: c}`, inside an enclosing mapping. -/
def c1Events : List Event :=
  [Event.scalar "a", Event.mapStart, Event.scalar "b", Event.scalar "c",
   Event.mapEnd, Event.mapEnd, Event.streamEnd]

/-- C1 counterexample: on `c1Events` the source attaches `b=c` under the
most recently created child `a` (line 138 recurses on `node`), while the
claim's reading (recurse on `parent`) would attach `b=c` as a sibling of
`a`; the two results differ. -/
theorem mapping_recursion_target_c1_counterexample :
    (ConfYamlParseLoop 20 c1Events emptyRoot true false ConfState.key 0 =
      some (true,
        ConfNode.mk "" none false false
          [ConfNode.mk "a" none false false
            [ConfNode.mk "b" (some "c") false false []]],
        [Event.streamEnd])) ∧
    (ConfYamlParseLoopC1Claim 20 c1Events emptyRoot true false
        ConfState.key 0 =
      some (true,
        ConfNode.mk "" none false false
          [ConfNode.mk "a" none false false [],
           ConfNode.mk "b" (some "c") false false []],
        [Event.streamEnd])) ∧
    ConfNode.mk "" none false false
      [ConfNode.mk "a" none false false
        [ConfNode.mk "b" (some "c") false false []]] ≠
    ConfNode.mk "" none false false
      [ConfNode.mk "a" none false false [],
       ConfNode.mk "b" (some "c") false false []] := by
  refine ⟨rfl, rfl, fun h => ?_⟩
  exact absurd (congrArg (fun t => t.children.map ConfNode.name) h) (by decide)

/-- C1 (amended): on a `MAPPING_START` event outside a sequence the
builder recurses on the `node` cursor — the most recently created child
of this invocation, or the parent if none was created yet — with
`in_sequence = false`, ignores the recursion's success flag, and
continues in the key phase. -/
theorem mapping_recursion_target_c1 (fuel : Nat) (evs : List Event)
    (p : ConfNode) (cur : Bool) (st : ConfState) (idx : Nat) :
    ConfYamlParseLoop (fuel + 1) (Event.mapStart :: evs) p cur false st idx =
      match ConfYamlParseLoop fuel evs (curGet p cur) true false
              ConfState.key 0 with
      | none => none
      | some (_, cn, rem) =>
          ConfYamlParseLoop fuel rem (curPut p cur cn) cur false
            ConfState.key idx := by
  rfl

/-! ### C8: the version gate on `DOCUMENT_START` -/

/-- Ignored events step the loop without any effect. -/
theorem loop_other_step (fuel : Nat) (evs : List Event) (p : ConfNode)
    (cur inseq : Bool) (st : ConfState) (idx : Nat) :
    ConfYamlParseLoop (fuel + 1) (Event.other :: evs) p cur inseq st idx =
      ConfYamlParseLoop fuel evs p cur inseq st idx := rfl

/-- A `DOCUMENT_START` without version directive, or with a directive
other than `(1, 1)`, aborts the invocation. -/
theorem loop_docstart_bad (fuel : Nat) (evs : List Event) (p : ConfNode)
    (cur inseq : Bool) (st : ConfState) (idx : Nat)
    (ver : Option (Nat × Nat)) (hver : ver ≠ some (1, 1)) :
    ConfYamlParseLoop (fuel + 1) (Event.docStart ver :: evs) p cur inseq
        st idx = some (false, p, evs) := by
  cases ver with
  | none => rfl
  | some mm =>
      obtain ⟨major, minor⟩ := mm
      have hne : ¬(major = 1 ∧ minor = 1) := by
        rintro ⟨rfl, rfl⟩
        exact hver rfl
      simp [ConfYamlParseLoop, hne]

/-- A `DOCUMENT_START` with directive exactly `(1, 1)` is accepted and
the loop continues unchanged. -/
theorem loop_docstart_ok (fuel : Nat) (evs : List Event) (p : ConfNode)
    (cur inseq : Bool) (st : ConfState) (idx : Nat) :
    ConfYamlParseLoop (fuel + 1) (Event.docStart (some (1, 1)) :: evs)
        p cur inseq st idx =
      ConfYamlParseLoop fuel evs p cur inseq st idx := by
  simp [ConfYamlParseLoop]

/-- C8: if the `DOCUMENT_START` event carries no version directive or a
directive different from `(1, 1)`, the builder aborts at that event and
the string entry point returns `-1`; with exactly `(1, 1)` the loop
continues. -/
theorem version_gate_c8 :
    (∀ (ver : Option (Nat × Nat)), ver ≠ some (1, 1) →
      (∀ (fuel : Nat) (evs : List Event) (p : ConfNode) (cur inseq : Bool)
          (st : ConfState) (idx : Nat),
        ConfYamlParseLoop (fuel + 1) (Event.docStart ver :: evs) p cur inseq
            st idx = some (false, p, evs)) ∧
      (∀ (rest : List Event) (root : ConfNode),
        ConfYamlLoadString (Event.other :: Event.docStart ver :: rest) root =
          (-1, root))) ∧
    (∀ (fuel : Nat) (evs : List Event) (p : ConfNode) (cur inseq : Bool)
        (st : ConfState) (idx : Nat),
      ConfYamlParseLoop (fuel + 1) (Event.docStart (some (1, 1)) :: evs)
          p cur inseq st idx =
        ConfYamlParseLoop fuel evs p cur inseq st idx) := by
  refine ⟨fun ver hver => ⟨fun fuel evs p cur inseq st idx =>
    loop_docstart_bad fuel evs p cur inseq st idx ver hver,
    fun rest root => ?_⟩, loop_docstart_ok⟩
  unfold ConfYamlLoadString ConfYamlParse enoughFuel
  have e1 : 2 * (Event.other :: Event.docStart ver :: rest).length + 2 =
      (2 * rest.length + 5) + 1 := by
    simp [List.length_cons]
    ring
  rw [e1, loop_other_step]
  have e2 : 2 * rest.length + 5 = (2 * rest.length + 4) + 1 := rfl
  rw [e2, loop_docstart_bad _ _ _ _ _ _ _ _ hver]

/-- Witness for C8 at the concrete version `9.9` of the unit test. -/
theorem version_gate_c8_witness :
    (some (9, 9) : Option (Nat × Nat)) ≠ some (1, 1) ∧
    ConfYamlLoadString [Event.other, Event.docStart (some (9, 9))]
        emptyRoot = (-1, emptyRoot) :=
  ⟨by decide,
   (version_gate_c8.1 (some (9, 9)) (by decide)).2 [] emptyRoot⟩

/-! ### C9 / C3: the scalar following a skipped override-locked key -/

/-- C9: after an override-locked key is skipped, the next scalar event is
written into the `val` of the `node` cursor — the most recently created
child of this invocation, or the parent itself (including the tree root)
when none was created yet — replacing its previous value; the phase then
returns to key. -/
theorem skipped_value_written_to_cursor_c9 (fuel : Nat) (evs : List Event)
    (p : ConfNode) (cur : Bool) (idx : Nat) (k v : String) (n0 : ConfNode)
    (hfind : ConfNodeLookupChild p k = some n0)
    (hlock : n0.allow_override = false) :
    ConfYamlParseLoop (fuel + 2) (Event.scalar k :: Event.scalar v :: evs)
        p cur false ConfState.key idx =
      ConfYamlParseLoop fuel evs (curSetVal p cur v) cur false
        ConfState.key idx := by
  simp [ConfYamlParseLoop, hfind, hlock]

/-- A node seeded with an override-locked child `foo = seed`. -/
def seedChild : ConfNode := ConfNode.mk "foo" (some "seed") false false []

/-- A root whose only child is the override-locked seed `foo`. -/
def seededRoot : ConfNode := ConfNode.mk "" none false false [seedChild]

/-- Witness for C9: with the cursor still on the (root) parent, the
skipped key's value lands in the parent's `val`. -/
theorem skipped_value_written_to_cursor_c9_witness :
    ConfNodeLookupChild seededRoot "foo" = some seedChild ∧
    seedChild.allow_override = false ∧
    ConfYamlParseLoop 2 [Event.scalar "foo", Event.scalar "bar"]
        seededRoot true false ConfState.key 0 =
      ConfYamlParseLoop 0 [] (curSetVal seededRoot true "bar") true false
        ConfState.key 0 :=
  ⟨rfl, rfl,
   skipped_value_written_to_cursor_c9 0 [] seededRoot true 0 "foo" "bar"
     seedChild rfl rfl⟩

/-- C3 counterexample: loading `foo: replacement` against the seeded root
leaves the seed child alone but writes `replacement` into the cursor
(here the root itself), so the tree is *not* left unmodified by the value
event. -/
theorem override_skip_c3_counterexample :
    (ConfYamlParseLoop 10
        [Event.scalar "foo", Event.scalar "replacement", Event.mapEnd]
        seededRoot true false ConfState.key 0 =
      some (true, ConfNode.mk "" (some "replacement") false false
        [seedChild], [])) ∧
    ConfNode.mk "" (some "replacement") false false [seedChild] ≠
      seededRoot := by
  refine ⟨rfl, fun h => ?_⟩
  exact absurd (congrArg ConfNode.val h) (by simp [seededRoot])

/-- The cursor write changes no child names when the parent has any
children at all. -/
theorem curSetVal_names (p : ConfNode) (cur : Bool) (v : String)
    (h : p.children ≠ []) :
    (curSetVal p cur v).children.map ConfNode.name =
      p.children.map ConfNode.name := by
  cases cur with
  | true => simp [curSetVal, curPut, curGet]
  | false =>
      rcases List.eq_nil_or_concat p.children with hnil | ⟨l, a, hl⟩
      · exact absurd hnil h
      · simp [curSetVal, curPut, curGet, hl, List.getLastD_concat]

/-- C3 (amended): for a key matching an override-locked existing child,
no node is created (the multiset of child names is unchanged) and the
following scalar is consumed and written into the cursor node's `val`;
the phase returns to key. -/
theorem override_skip_c3 (fuel : Nat) (evs : List Event)
    (p : ConfNode) (cur : Bool) (idx : Nat) (k v : String) (n0 : ConfNode)
    (hfind : ConfNodeLookupChild p k = some n0)
    (hlock : n0.allow_override = false) :
    ∃ p', ConfYamlParseLoop (fuel + 2)
          (Event.scalar k :: Event.scalar v :: evs) p cur false
          ConfState.key idx =
        ConfYamlParseLoop fuel evs p' cur false ConfState.key idx ∧
      p' = curSetVal p cur v ∧
      p'.children.map ConfNode.name = p.children.map ConfNode.name := by
  refine ⟨curSetVal p cur v, ?_, rfl, ?_⟩
  · simp [ConfYamlParseLoop, hfind, hlock]
  · apply curSetVal_names
    intro hnil
    rw [ConfNodeLookupChild, hnil] at hfind
    simp at hfind

/-- Witness for C3 (amended) at the seeded root. -/
theorem override_skip_c3_witness :
    ConfNodeLookupChild seededRoot "foo" = some seedChild ∧
    seedChild.allow_override = false ∧
    ∃ p', ConfYamlParseLoop 2
          [Event.scalar "foo", Event.scalar "replacement"]
          seededRoot true false ConfState.key 0 =
        ConfYamlParseLoop 0 [] p' true false ConfState.key 0 ∧
      p' = curSetVal seededRoot true "replacement" ∧
      p'.children.map ConfNode.name =
        seededRoot.children.map ConfNode.name :=
  ⟨rfl, rfl,
   override_skip_c3 0 [] seededRoot true 0 "foo" "replacement"
     seedChild rfl rfl⟩

/-! ### C2: error propagation -/

/-- C2 counterexample: in the stream
`[MAPPING_START, DOCUMENT_START(no version), MAPPING_END, STREAM_END]`
the inner `MAPPING_START` recursion fails on the missing version
directive, yet the loader discards that result (line 138's return value
is unchecked) and the load returns `0`. -/
theorem error_propagation_c2_counterexample :
    (ConfYamlParseLoop 9 [Event.docStart none, Event.mapEnd, Event.streamEnd]
        emptyRoot true false ConfState.key 0 =
      some (false, emptyRoot, [Event.mapEnd, Event.streamEnd])) ∧
    ConfYamlLoadString
        [Event.mapStart, Event.docStart none, Event.mapEnd, Event.streamEnd]
        emptyRoot = (0, emptyRoot) :=
  ⟨rfl, rfl⟩

/-- C2 (amended): a failure of a `SEQUENCE_START` recursion propagates
(the enclosing invocation returns failure at once), while the result of a
`MAPPING_START` recursion is discarded: the enclosing loop continues the
same way whatever the inner success flag was. -/
theorem error_propagation_c2 :
    (∀ (fuel : Nat) (evs : List Event) (p : ConfNode) (cur inseq : Bool)
        (st : ConfState) (idx : Nat) (n : ConfNode) (rem : List Event),
      ConfYamlParseLoop fuel evs (curGet p cur) true true ConfState.key 0 =
        some (false, n, rem) →
      ConfYamlParseLoop (fuel + 1) (Event.seqStart :: evs) p cur inseq
          st idx = some (false, curPut p cur n, rem)) ∧
    (∀ (fuel : Nat) (evs : List Event) (p : ConfNode) (cur : Bool)
        (st : ConfState) (idx : Nat) (b : Bool) (cn : ConfNode)
        (rem : List Event),
      ConfYamlParseLoop fuel evs (curGet p cur) true false ConfState.key 0 =
        some (b, cn, rem) →
      ConfYamlParseLoop (fuel + 1) (Event.mapStart :: evs) p cur false
          st idx =
        ConfYamlParseLoop fuel rem (curPut p cur cn) cur false
          ConfState.key idx) := by
  constructor
  · intro fuel evs p cur inseq st idx n rem h
    simp [ConfYamlParseLoop, h]
  · intro fuel evs p cur st idx b cn rem h
    simp [ConfYamlParseLoop, h]

/-- Witness for C2 (amended): a concrete failing sequence recursion
propagates out of its opener. -/
theorem error_propagation_c2_witness :
    (ConfYamlParseLoop 1 [Event.docStart none] (curGet emptyRoot true)
        true true ConfState.key 0 = some (false, emptyRoot, [])) ∧
    ConfYamlParseLoop 2 [Event.seqStart, Event.docStart none] emptyRoot
        true false ConfState.key 0 =
      some (false, curPut emptyRoot true emptyRoot, []) :=
  ⟨rfl,
   error_propagation_c2.1 1 [Event.docStart none] emptyRoot true false
     ConfState.key 0 emptyRoot [] rfl⟩

/-! ### C10: nested sequences directly inside sequences -/

/-- C10: in sequence mode the cursor still equals the parent, so a
`SEQUENCE_START` met while already in sequence mode recurses on the very
same parent with a fresh counter starting at 0, and the enclosing
invocation resumes with its own counter unchanged; concretely, the
sequence `[a, [b], c]` yields children named `"0", "0", "1"` — duplicate
sibling names. -/
theorem nested_sequence_same_parent_c10 :
    (∀ (fuel : Nat) (evs : List Event) (p : ConfNode) (st : ConfState)
        (idx : Nat),
      ConfYamlParseLoop (fuel + 1) (Event.seqStart :: evs) p true true
          st idx =
        match ConfYamlParseLoop fuel evs p true true ConfState.key 0 with
        | none => none
        | some (ok, cn, rem) =>
            if ok then
              ConfYamlParseLoop fuel rem cn true true ConfState.key idx
            else
              some (false, cn, rem)) ∧
    (ConfYamlParseLoop 10
        [Event.scalar "a", Event.seqStart, Event.scalar "b", Event.seqEnd,
         Event.scalar "c", Event.seqEnd]
        (ConfNode.mk "s" none false false []) true true ConfState.key 0
      |>.map (fun r => r.2.1.children.map ConfNode.name)) =
      some ["0", "0", "1"] := by
  constructor
  · intro fuel evs p st idx
    rfl
  · rfl

/-! ### C4: override-locked seed nodes survive a load unchanged

The cursor invariant: within an invocation, the `node` cursor is either
the parent itself (`cur = true`) or the last element of the parent's
child list.  `HasFrame c l cur` says a fixed node `c` occurs in the child
list `l`, and not at the last position when the cursor is detached — so
no cursor write can touch it. -/

/-- Node `c` occurs in `l`; when `cur = false` it is not the last element. -/
def HasFrame (c : ConfNode) (l : List ConfNode) (cur : Bool) : Prop :=
  ∃ l1 l2, l = l1 ++ c :: l2 ∧ (cur = false → l2 ≠ [])

theorem HasFrame.mem {c : ConfNode} {l : List ConfNode} {cur : Bool}
    (h : HasFrame c l cur) : c ∈ l := by
  obtain ⟨l1, l2, rfl, -⟩ := h
  simp

theorem hasFrame_of_mem {c : ConfNode} {l : List ConfNode}
    (h : c ∈ l) : HasFrame c l true := by
  obtain ⟨s, t, rfl⟩ := List.append_of_mem h
  exact ⟨s, t, rfl, by simp⟩

/-- Appending at the tail preserves the frame for any cursor position. -/
theorem hasFrame_append {c x : ConfNode} {l : List ConfNode}
    (h : c ∈ l) (cur : Bool) : HasFrame c (l ++ [x]) cur := by
  obtain ⟨s, t, rfl⟩ := List.append_of_mem h
  exact ⟨s, t ++ [x], by simp, fun _ => by simp⟩

/-- Replacing the last element preserves the frame of a non-last node. -/
theorem hasFrame_replace_last {c x : ConfNode} {l : List ConfNode}
    (h : HasFrame c l false) : HasFrame c (l.dropLast ++ [x]) false := by
  obtain ⟨l1, l2, rfl, hne⟩ := h
  rcases List.eq_nil_or_concat l2 with rfl | ⟨l2', a, rfl⟩
  · exact absurd rfl (hne rfl)
  · simp only [List.concat_eq_append]
    refine ⟨l1, l2' ++ [x], ?_, fun _ => by simp⟩
    have e : l1 ++ c :: (l2' ++ [a]) = (l1 ++ c :: l2') ++ [a] := by simp
    rw [e, List.dropLast_concat]
    simp

/-- Removing the first node of a given name keeps every other node. -/
theorem mem_removeFirstNamed {c n0 : ConfNode} {l : List ConfNode}
    {nm : String} (hfind : l.find? (fun x => x.name == nm) = some n0)
    (hmem : c ∈ l) (hne : c ≠ n0) : c ∈ removeFirstNamed nm l := by
  induction l with
  | nil => cases hmem
  | cons x xs ih =>
      by_cases hx : (x.name == nm) = true
      · rw [removeFirstNamed, if_pos hx]
        simp only [List.find?_cons, hx, Option.some.injEq] at hfind
        rcases List.mem_cons.mp hmem with rfl | hxs
        · exact absurd hfind hne
        · exact hxs
      · rw [removeFirstNamed, if_neg hx]
        rw [Bool.not_eq_true] at hx
        simp only [List.find?_cons, hx] at hfind
        rcases List.mem_cons.mp hmem with rfl | hxs
        · exact List.mem_cons_self _ _
        · exact List.mem_cons_of_mem _ (ih hfind hxs)

@[simp] theorem curPut_true (p n : ConfNode) : curPut p true n = n := rfl

@[simp] theorem curPut_children_false (p n : ConfNode) :
    (curPut p false n).children = p.children.dropLast ++ [n] := by
  simp [curPut]

@[simp] theorem curSetVal_children_true (p : ConfNode) (v : String) :
    (curSetVal p true v).children = p.children := by
  simp [curSetVal, curGet]

@[simp] theorem curSetVal_children_false (p : ConfNode) (v : String) :
    (curSetVal p false v).children =
      p.children.dropLast ++ [(p.children.getLastD defaultNode).withVal v] := by
  simp [curSetVal, curGet]

/-- Creating a node leaves a child list with the new node last and the
old members in place: the branch target of the key-creation path. -/
theorem synth_children (p : ConfNode) (value : String) :
    (if p.is_seq ∧ p.val = none then p.withVal value else p).children =
      p.children := by
  split <;> simp

/-- Frame preservation: any override-locked node sitting in the parent's
child list away from the cursor is still in the child list when the
invocation returns, whatever events were consumed. -/
theorem loop_preserves_locked (fuel : Nat) :
    ∀ (evs : List Event) (p : ConfNode) (cur inseq : Bool) (st : ConfState)
      (idx : Nat) (b : Bool) (p' : ConfNode) (rem : List Event)
      (c : ConfNode),
      ConfYamlParseLoop fuel evs p cur inseq st idx = some (b, p', rem) →
      c.allow_override = false →
      HasFrame c p.children cur →
      c ∈ p'.children := by
  induction fuel with
  | zero =>
      intro evs p cur inseq st idx b p' rem c h
      simp [ConfYamlParseLoop] at h
  | succ fuel IH =>
      intro evs p cur inseq st idx b p' rem c h hc hf
      cases evs with
      | nil =>
          simp [ConfYamlParseLoop] at h
          obtain ⟨-, rfl, -⟩ := h
          exact hf.mem
      | cons e evs =>
          cases e with
          | docStart ver =>
              cases ver with
              | none =>
                  simp [ConfYamlParseLoop] at h
                  obtain ⟨-, rfl, -⟩ := h
                  exact hf.mem
              | some mm =>
                  obtain ⟨major, minor⟩ := mm
                  by_cases hv : major = 1 ∧ minor = 1
                  · simp only [ConfYamlParseLoop, if_pos hv] at h
                    exact IH _ _ _ _ _ _ _ _ _ _ h hc hf
                  · simp only [ConfYamlParseLoop, if_neg hv] at h
                    obtain ⟨-, rfl, -⟩ := by
                      simpa using h
                    exact hf.mem
          | scalar value =>
              cases inseq with
              | true =>
                  simp only [ConfYamlParseLoop, if_true] at h
                  refine IH _ _ _ _ _ _ _ _ _ _ h hc ?_
                  rw [ConfNode.children_withChildren]
                  exact hasFrame_append hf.mem cur
              | false =>
                  cases st with
                  | key =>
                      rcases hl : ConfNodeLookupChild p value with - | n0
                      · simp only [ConfYamlParseLoop, hl] at h
                        refine IH _ _ _ _ _ _ _ _ _ _ h hc ?_
                        rw [ConfNode.children_withChildren, synth_children]
                        exact hasFrame_append hf.mem false
                      · cases ho : n0.allow_override with
                        | false =>
                            simp only [ConfYamlParseLoop, hl, ho] at h
                            exact IH _ _ _ _ _ _ _ _ _ _ h hc hf
                        | true =>
                            have hne : c ≠ n0 := by
                              intro hceq
                              rw [hceq, ho] at hc
                              cases hc
                            simp only [ConfYamlParseLoop, hl, ho] at h
                            refine IH _ _ _ _ _ _ _ _ _ _ h hc ?_
                            rw [ConfNode.children_withChildren, synth_children,
                              ConfNode.children_withChildren]
                            exact hasFrame_append
                              (mem_removeFirstNamed hl hf.mem hne) false
                  | val =>
                      simp only [ConfYamlParseLoop] at h
                      refine IH _ _ _ _ _ _ _ _ _ _ h hc ?_
                      cases cur with
                      | true => rw [curSetVal_children_true]; exact hf
                      | false =>
                          rw [curSetVal_children_false]
                          exact hasFrame_replace_last hf
          | seqStart =>
              simp only [ConfYamlParseLoop] at h
              rcases hin : ConfYamlParseLoop fuel evs (curGet p cur) true true
                  ConfState.key 0 with - | ⟨ok, cn, rem'⟩
              · rw [hin] at h; cases h
              · rw [hin] at h
                have hcn : HasFrame c (curPut p cur cn).children cur := by
                  cases cur with
                  | true =>
                      rw [curPut_true]
                      exact hasFrame_of_mem
                        (IH _ _ _ _ _ _ _ _ _ _ hin hc
                          (hasFrame_of_mem hf.mem))
                  | false =>
                      rw [curPut_children_false]
                      exact hasFrame_replace_last hf
                cases ok with
                | true =>
                    simp only [if_true] at h
                    exact IH _ _ _ _ _ _ _ _ _ _ h hc hcn
                | false =>
                    simp only [Bool.false_eq_true, if_false,
                      Option.some.injEq, Prod.mk.injEq] at h
                    obtain ⟨-, rfl, -⟩ := h
                    exact hcn.mem
          | seqEnd =>
              simp [ConfYamlParseLoop] at h
              obtain ⟨-, rfl, -⟩ := h
              exact hf.mem
          | mapStart =>
              cases inseq with
              | true =>
                  simp only [ConfYamlParseLoop, if_true] at h
                  rcases hin : ConfYamlParseLoop fuel evs
                      (ConfNode.mk (toString idx) none true false [])
                      true false ConfState.key 0 with - | ⟨b1, sn, rem'⟩
                  · rw [hin] at h; cases h
                  · rw [hin] at h
                    refine IH _ _ _ _ _ _ _ _ _ _ h hc ?_
                    rw [ConfNode.children_withChildren]
                    exact hasFrame_append hf.mem cur
              | false =>
                  simp only [ConfYamlParseLoop, Bool.false_eq_true,
                    if_false] at h
                  rcases hin : ConfYamlParseLoop fuel evs (curGet p cur) true
                      false ConfState.key 0 with - | ⟨b1, cn, rem'⟩
                  · rw [hin] at h; cases h
                  · rw [hin] at h
                    refine IH _ _ _ _ _ _ _ _ _ _ h hc ?_
                    cases cur with
                    | true =>
                        rw [curPut_true]
                        exact hasFrame_of_mem
                          (IH _ _ _ _ _ _ _ _ _ _ hin hc
                            (hasFrame_of_mem hf.mem))
                    | false =>
                        rw [curPut_children_false]
                        exact hasFrame_replace_last hf
          | mapEnd =>
              simp [ConfYamlParseLoop] at h
              obtain ⟨-, rfl, -⟩ := h
              exact hf.mem
          | streamEnd =>
              simp [ConfYamlParseLoop] at h
              obtain ⟨-, rfl, -⟩ := h
              exact hf.mem
          | other =>
              simp only [ConfYamlParseLoop] at h
              exact IH _ _ _ _ _ _ _ _ _ _ h hc hf

/-- C4: an override-locked seed node (present among the load target's
children before the load, `allow_override` unset) is still present — with
its name, val and children unchanged — after any load, whatever the input
event stream (in particular any stream containing a mapping entry with
the seed's key). -/
theorem locked_seed_preserved_c4 (events : List Event) (root : ConfNode)
    (ret : Int) (root' : ConfNode) (N : ConfNode)
    (h : ConfYamlLoadString events root = (ret, root'))
    (hmem : N ∈ root.children)
    (hlock : N.allow_override = false) :
    N ∈ root'.children := by
  unfold ConfYamlLoadString ConfYamlParse at h
  rcases hp : ConfYamlParseLoop (enoughFuel events) events root true false
      ConfState.key 0 with - | ⟨b, r, rem⟩
  · rw [hp] at h
    obtain ⟨-, rfl⟩ : ret = -1 ∧ root' = root := by
      constructor <;> injection h <;> simp_all
    exact hmem
  · rw [hp] at h
    have hr : root' = r := by
      cases b <;> injection h <;> simp_all
    rw [hr]
    exact loop_preserves_locked _ _ _ _ _ _ _ _ _ _ _ hp hlock
      (hasFrame_of_mem hmem)

/-- Witness for C4: the seeded root keeps its locked child `foo = seed`
across a load of `foo: replacement`. -/
theorem locked_seed_preserved_c4_witness :
    ConfYamlLoadString
        [Event.scalar "foo", Event.scalar "replacement", Event.streamEnd]
        seededRoot =
      (0, ConfNode.mk "" (some "replacement") false false [seedChild]) ∧
    seedChild ∈ seededRoot.children ∧
    seedChild.allow_override = false ∧
    seedChild ∈
      (ConfNode.mk "" (some "replacement") false false [seedChild]).children :=
  ⟨rfl, List.mem_cons_self _ _, rfl,
   locked_seed_preserved_c4
     [Event.scalar "foo", Event.scalar "replacement", Event.streamEnd]
     seededRoot 0 (ConfNode.mk "" (some "replacement") false false [seedChild])
     seedChild rfl (List.mem_cons_self _ _) rfl⟩

/-! ### Well-formed YAML values and their event serializations

To reason about whole sequences and mapping bodies (claims C5 and C6) we
describe balanced YAML content by a grammar and serialize it to the event
lists the event source would produce. -/

/-- A YAML value: a scalar, a mapping (ordered key/value entries), or a
sequence of values. -/
inductive YVal : Type where
  | scalar (s : String)
  | map (entries : List (String × YVal))
  | seq (items : List YVal)

/-- Is this value a sequence? -/
def YVal.isSeqKind : YVal → Bool
  | YVal.seq _ => true
  | _ => false

mutual

/-- Events of a value in value position. -/
def valEvents : YVal → List Event
  | YVal.scalar s => [Event.scalar s]
  | YVal.map es => Event.mapStart :: (entriesEvents es ++ [Event.mapEnd])
  | YVal.seq its => Event.seqStart :: (itemsEvents its ++ [Event.seqEnd])

/-- Events of a mapping body: alternating key scalars and value events. -/
def entriesEvents : List (String × YVal) → List Event
  | [] => []
  | (k, v) :: es => Event.scalar k :: (valEvents v ++ entriesEvents es)

/-- Events of the items of a sequence body. -/
def itemsEvents : List YVal → List Event
  | [] => []
  | v :: its => valEvents v ++ itemsEvents its

end

/-- Nodes are equal when all five components are. -/
theorem ConfNode.eq_of_parts {a b : ConfNode} (hn : a.name = b.name)
    (hv : a.val = b.val) (hs : a.is_seq = b.is_seq)
    (ha : a.allow_override = b.allow_override)
    (hc : a.children = b.children) : a = b := by
  cases a
  cases b
  simp_all [ConfNode.name, ConfNode.val, ConfNode.is_seq,
    ConfNode.allow_override, ConfNode.children]

@[simp] theorem withChildren_self (p : ConfNode) :
    p.withChildren p.children = p := by
  cases p
  rfl

@[simp] theorem curPut_name_false (p n : ConfNode) :
    (curPut p false n).name = p.name := by simp [curPut]

@[simp] theorem curPut_val_false (p n : ConfNode) :
    (curPut p false n).val = p.val := by simp [curPut]

@[simp] theorem curPut_is_seq_false (p n : ConfNode) :
    (curPut p false n).is_seq = p.is_seq := by simp [curPut]

@[simp] theorem curPut_allow_false (p n : ConfNode) :
    (curPut p false n).allow_override = p.allow_override := by simp [curPut]

theorem curSetVal_true (p : ConfNode) (v : String) :
    curSetVal p true v = p.withVal v := rfl

@[simp] theorem curGet_true (p : ConfNode) : curGet p true = p := rfl

/-- The statement `ValStep fuel`: consuming the serialized events of one
value from the value phase steps the invocation to the key phase on the
remaining events, preserving the parent's identity facts (and its `val`
when the cursor is detached). -/
def ValStep (fuel : Nat) : Prop :=
  ∀ (v : YVal) (tail : List Event) (p : ConfNode) (cur : Bool) (idx : Nat)
    (r : Bool × ConfNode × List Event),
    ConfYamlParseLoop fuel (valEvents v ++ tail) p cur false
        ConfState.val idx = some r →
    ∃ f' p', f' < fuel ∧
      ConfYamlParseLoop f' tail p' cur false ConfState.key idx = some r ∧
      p'.name = p.name ∧ p'.is_seq = p.is_seq ∧
      p'.allow_override = p.allow_override ∧
      (cur = false → p'.val = p.val)

/-- The statement `MapBody fuel`: an invocation started in the key phase
on a serialized mapping body consumes exactly that body, succeeds, and
preserves the parent's identity facts; when the parent is a fresh
sequence-element node, its `val` becomes the body's first key. -/
def MapBody (fuel : Nat) : Prop :=
  ∀ (es : List (String × YVal)) (rest : List Event) (p : ConfNode)
    (cur : Bool) (idx : Nat) (b : Bool) (p' : ConfNode) (rem : List Event),
    ConfYamlParseLoop fuel (entriesEvents es ++ Event.mapEnd :: rest) p cur
        false ConfState.key idx = some (b, p', rem) →
    b = true ∧ rem = rest ∧ p'.name = p.name ∧ p'.is_seq = p.is_seq ∧
    p'.allow_override = p.allow_override ∧
    (es = [] → p' = p) ∧
    (cur = false → p.val ≠ none → p'.val = p.val) ∧
    (p.children = [] → p.is_seq = true → p.val = none →
      ∀ k v es', es = (k, v) :: es' → p'.val = some k)

/-- The statement `SeqBody fuel`: an invocation in sequence mode on a
serialized sequence body consumes exactly that body, succeeds, only
appends children, and leaves the parent's other fields unchanged. -/
def SeqBody (fuel : Nat) : Prop :=
  ∀ (its : List YVal) (rest : List Event) (p : ConfNode) (st : ConfState)
    (idx : Nat) (b : Bool) (p' : ConfNode) (rem : List Event),
    ConfYamlParseLoop fuel (itemsEvents its ++ Event.seqEnd :: rest) p true
        true st idx = some (b, p', rem) →
    b = true ∧ rem = rest ∧ p'.name = p.name ∧ p'.val = p.val ∧
    p'.is_seq = p.is_seq ∧ p'.allow_override = p.allow_override ∧
    ∃ kids, p'.children = p.children ++ kids

@[simp] theorem synth_name (p : ConfNode) (k : String) :
    (if p.is_seq ∧ p.val = none then p.withVal k else p).name = p.name := by
  split <;> simp

@[simp] theorem synth_is_seq (p : ConfNode) (k : String) :
    (if p.is_seq ∧ p.val = none then p.withVal k else p).is_seq =
      p.is_seq := by
  split <;> simp

@[simp] theorem synth_allow (p : ConfNode) (k : String) :
    (if p.is_seq ∧ p.val = none then p.withVal k else p).allow_override =
      p.allow_override := by
  split <;> simp

theorem synth_val_of_ne (p : ConfNode) (k : String) (hv : p.val ≠ none) :
    (if p.is_seq ∧ p.val = none then p.withVal k else p).val = p.val := by
  rw [if_neg]
  exact fun hcond => hv hcond.2

/-- The joint partial-correctness statement over the grammar, by strong
induction on the fuel. -/
theorem parse_units : ∀ fuel : Nat, ValStep fuel ∧ MapBody fuel ∧ SeqBody fuel := by
  intro fuel
  induction fuel using Nat.strong_induction_on with
  | _ fuel IH =>
    refine ⟨?_, ?_, ?_⟩
    -- ValStep
    · intro v tail p cur idx r h
      cases fuel with
      | zero => simp [ConfYamlParseLoop] at h
      | succ g =>
        have hg : g < g + 1 := Nat.lt_succ_self g
        cases v with
        | scalar s =>
            simp only [valEvents, List.cons_append, List.nil_append] at h
            simp [ConfYamlParseLoop] at h
            refine ⟨g, curSetVal p cur s, hg, h, ?_, ?_, ?_, ?_⟩
            · cases cur <;> simp [curSetVal]
            · cases cur <;> simp [curSetVal]
            · cases cur <;> simp [curSetVal]
            · rintro rfl; simp [curSetVal]
        | map es =>
            simp only [valEvents, List.cons_append, List.append_assoc,
              List.singleton_append] at h
            simp [ConfYamlParseLoop] at h
            rcases hin : ConfYamlParseLoop g
                (entriesEvents es ++ Event.mapEnd :: tail) (curGet p cur)
                true false ConfState.key 0 with - | ⟨b1, cn, rem1⟩
            · rw [hin] at h; cases h
            · rw [hin] at h
              obtain ⟨-, hrem1, hname, hseq, hallow, -, -, -⟩ :=
                (IH g hg).2.1 es tail (curGet p cur) true 0 b1 cn rem1 hin
              subst hrem1
              refine ⟨g, curPut p cur cn, hg, h, ?_, ?_, ?_, ?_⟩
              · cases cur
                · simp
                · simpa using hname
              · cases cur
                · simp
                · simpa using hseq
              · cases cur
                · simp
                · simpa using hallow
              · rintro rfl; simp
        | seq its =>
            simp only [valEvents, List.cons_append, List.append_assoc,
              List.singleton_append] at h
            simp [ConfYamlParseLoop] at h
            rcases hin : ConfYamlParseLoop g
                (itemsEvents its ++ Event.seqEnd :: tail) (curGet p cur)
                true true ConfState.key 0 with - | ⟨ok, cn, rem1⟩
            · rw [hin] at h; cases h
            · rw [hin] at h
              obtain ⟨hok, hrem1, hname, hval, hseq, hallow, -⟩ :=
                (IH g hg).2.2 its tail (curGet p cur) ConfState.key 0 ok cn
                  rem1 hin
              subst hok
              subst hrem1
              simp at h
              refine ⟨g, curPut p cur cn, hg, h, ?_, ?_, ?_, ?_⟩
              · cases cur
                · simp
                · simpa using hname
              · cases cur
                · simp
                · simpa using hseq
              · cases cur
                · simp
                · simpa using hallow
              · rintro rfl; simp
    -- MapBody
    · intro es rest p cur idx b p' rem h
      cases fuel with
      | zero => simp [ConfYamlParseLoop] at h
      | succ g =>
        have hg : g < g + 1 := Nat.lt_succ_self g
        cases es with
        | nil =>
            simp only [entriesEvents, List.nil_append] at h
            simp [ConfYamlParseLoop] at h
            obtain ⟨rfl, rfl, rfl⟩ := h
            exact ⟨rfl, rfl, rfl, rfl, rfl, fun _ => rfl,
              fun _ _ => rfl, fun _ _ _ _ _ _ hbad => by cases hbad⟩
        | cons kv es' =>
            obtain ⟨k, v⟩ := kv
            simp only [entriesEvents, List.cons_append,
              List.append_assoc] at h
            simp [ConfYamlParseLoop] at h
            rcases hl : ConfNodeLookupChild p k with - | n0
            · rw [hl] at h
              obtain ⟨f', p4, hf', h4, hn4, hs4, ha4, hv4⟩ :=
                (IH g hg).1 v _ _ false idx _ h
              obtain ⟨hb, hrem, hn', hs', ha', -, hvp', -⟩ :=
                (IH f' (Nat.lt_trans hf' hg)).2.1 es' rest p4 false idx b p'
                  rem h4
              have hv4' := hv4 rfl
              refine ⟨hb, hrem, ?_, ?_, ?_, ?_, ?_, ?_⟩
              · rw [hn', hn4]; simp
              · rw [hs', hs4]; simp
              · rw [ha', ha4]; simp
              · intro hbad; cases hbad
              · intro _ hvne
                have hp3 : p4.val = p.val := by
                  rw [hv4', ConfNode.val_withChildren,
                    synth_val_of_ne p k hvne]
                rw [hvp' rfl (by rw [hp3]; exact hvne), hp3]
              · intro hch his hvn k' v' es'' heq
                injection heq with h1 h2
                injection h1 with hk hv2
                subst hk
                have hp4val : p4.val = some k := by
                  rw [hv4', ConfNode.val_withChildren, if_pos ⟨his, hvn⟩]
                  simp
                rw [hvp' rfl (by rw [hp4val]; simp), hp4val]
            · rw [hl] at h
              cases ho : n0.allow_override with
              | false =>
                  simp [ho] at h
                  obtain ⟨f', p4, hf', h4, hn4, hs4, ha4, hv4⟩ :=
                    (IH g hg).1 v _ p cur idx _ h
                  obtain ⟨hb, hrem, hn', hs', ha', -, hvp', -⟩ :=
                    (IH f' (Nat.lt_trans hf' hg)).2.1 es' rest p4 cur idx b
                      p' rem h4
                  refine ⟨hb, hrem, by rw [hn', hn4], by rw [hs', hs4],
                    by rw [ha', ha4], ?_, ?_, ?_⟩
                  · intro hbad; cases hbad
                  · intro hcur hvne
                    have h1 : p4.val = p.val := hv4 hcur
                    rw [hvp' hcur (by rw [h1]; exact hvne), h1]
                  · intro hch his hvn k' v' es'' heq
                    exfalso
                    rw [ConfNodeLookupChild, hch] at hl
                    simp at hl
              | true =>
                  simp [ho] at h
                  obtain ⟨f', p4, hf', h4, hn4, hs4, ha4, hv4⟩ :=
                    (IH g hg).1 v _ _ false idx _ h
                  obtain ⟨hb, hrem, hn', hs', ha', -, hvp', -⟩ :=
                    (IH f' (Nat.lt_trans hf' hg)).2.1 es' rest p4 false idx b
                      p' rem h4
                  have hv4' := hv4 rfl
                  refine ⟨hb, hrem, ?_, ?_, ?_, ?_, ?_, ?_⟩
                  · rw [hn', hn4, ConfNode.name_withChildren]
                    split <;> simp
                  · rw [hs', hs4, ConfNode.is_seq_withChildren]
                    split <;> simp
                  · rw [ha', ha4, ConfNode.allow_override_withChildren]
                    split <;> simp
                  · intro hbad; cases hbad
                  · intro _ hvne
                    have hp3 : p4.val = p.val := by
                      rw [hv4', ConfNode.val_withChildren,
                        if_neg (fun hc => hvne hc.2)]
                      simp
                    rw [hvp' rfl (by rw [hp3]; exact hvne), hp3]
                  · intro hch his hvn k' v' es'' heq
                    exfalso
                    rw [ConfNodeLookupChild, hch] at hl
                    simp at hl
    -- SeqBody
    · intro its rest p st idx b p' rem h
      cases fuel with
      | zero => simp [ConfYamlParseLoop] at h
      | succ g =>
        have hg : g < g + 1 := Nat.lt_succ_self g
        cases its with
        | nil =>
            simp only [itemsEvents, List.nil_append] at h
            simp [ConfYamlParseLoop] at h
            obtain ⟨rfl, rfl, rfl⟩ := h
            exact ⟨rfl, rfl, rfl, rfl, rfl, rfl, [], by simp⟩
        | cons v its' =>
            cases v with
            | scalar s =>
                simp only [itemsEvents, valEvents, List.cons_append,
                  List.nil_append, List.append_assoc] at h
                simp [ConfYamlParseLoop] at h
                obtain ⟨hb, hrem, hn', hv', hs', ha', kids', hkids'⟩ :=
                  (IH g hg).2.2 its' rest _ st (idx + 1) b p' rem h
                refine ⟨hb, hrem, by simpa using hn', by simpa using hv',
                  by simpa using hs', by simpa using ha',
                  ConfNode.mk (toString idx) (some s) false false [] :: kids',
                  ?_⟩
                rw [hkids']
                simp
            | map es =>
                simp only [itemsEvents, valEvents, List.cons_append,
                  List.append_assoc, List.singleton_append] at h
                simp [ConfYamlParseLoop] at h
                rcases hin : ConfYamlParseLoop g
                    (entriesEvents es ++
                      Event.mapEnd :: (itemsEvents its' ++
                        Event.seqEnd :: rest))
                    (ConfNode.mk (toString idx) none true false [])
                    true false ConfState.key 0 with - | ⟨b1, sn, rem1⟩
                · rw [hin] at h; cases h
                · rw [hin] at h
                  obtain ⟨-, hrem1, -, -, -, -, -, -⟩ :=
                    (IH g hg).2.1 es _ _ true 0 b1 sn rem1 hin
                  subst hrem1
                  obtain ⟨hb, hrem, hn', hv', hs', ha', kids', hkids'⟩ :=
                    (IH g hg).2.2 its' rest _ ConfState.key (idx + 1) b p'
                      rem h
                  refine ⟨hb, hrem, by simpa using hn', by simpa using hv',
                    by simpa using hs', by simpa using ha', sn :: kids', ?_⟩
                  rw [hkids']
                  simp
            | seq its'' =>
                simp only [itemsEvents, valEvents, List.cons_append,
                  List.append_assoc, List.singleton_append] at h
                simp [ConfYamlParseLoop] at h
                rcases hin : ConfYamlParseLoop g
                    (itemsEvents its'' ++
                      Event.seqEnd :: (itemsEvents its' ++
                        Event.seqEnd :: rest))
                    p true true ConfState.key 0 with - | ⟨ok, cn, rem1⟩
                · rw [hin] at h; cases h
                · rw [hin] at h
                  obtain ⟨hok, hrem1, hnc, hvc, hsc, hac, kids'', hkids''⟩ :=
                    (IH g hg).2.2 its'' _ p ConfState.key 0 ok cn rem1 hin
                  subst hok
                  subst hrem1
                  simp at h
                  obtain ⟨hb, hrem, hn', hv', hs', ha', kids', hkids'⟩ :=
                    (IH g hg).2.2 its' rest cn ConfState.key idx b p' rem h
                  refine ⟨hb, hrem, by rw [hn', hnc], by rw [hv', hvc],
                    by rw [hs', hsc], by rw [ha', hac],
                    kids'' ++ kids', ?_⟩
                  rw [hkids', hkids'']
                  simp

/-- The shape of the node built for one sequence item carrying the given
index name: a scalar item yields a leaf holding the text; a mapping item
yields an `is_seq` node whose `val` is the mapping's first key. -/
def itemShape : YVal → String → ConfNode → Prop
  | YVal.scalar s, nm, node => node = ConfNode.mk nm (some s) false false []
  | YVal.map [], nm, node => node = ConfNode.mk nm none true false []
  | YVal.map ((k, _) :: _), nm, node =>
      node.name = nm ∧ node.is_seq = true ∧ node.val = some k
  | YVal.seq _, _, _ => True

theorem itemShape_name {v : YVal} {nm : String} {node : ConfNode}
    (h : itemShape v nm node) (hv : v.isSeqKind = false) :
    node.name = nm := by
  cases v with
  | scalar s => rw [itemShape] at h; rw [h]; simp
  | map es =>
      cases es with
      | nil => rw [itemShape] at h; rw [h]; simp
      | cons kv es' =>
          obtain ⟨k, v2⟩ := kv
          exact h.1
  | seq its => simp [YVal.isSeqKind] at hv

/-- Characterization of a sequence-mode invocation over serialized items
(none of them sequences): it succeeds, consumes exactly the body, and
appends one node per item, named by consecutive counter values. -/
theorem seq_children_characterized (its : List YVal) :
    (∀ it ∈ its, it.isSeqKind = false) →
    ∀ (fuel : Nat) (rest : List Event) (p : ConfNode) (st : ConfState)
      (n : Nat) (b : Bool) (p' : ConfNode) (rem : List Event),
      ConfYamlParseLoop fuel (itemsEvents its ++ Event.seqEnd :: rest) p true
          true st n = some (b, p', rem) →
      b = true ∧ rem = rest ∧
      ∃ kids, p' = p.withChildren (p.children ++ kids) ∧
        kids.length = its.length ∧
        ∀ (i : Nat) (hi : i < its.length) (hk : i < kids.length),
          itemShape (its.get ⟨i, hi⟩) (toString (n + i)) (kids.get ⟨i, hk⟩) := by
  induction its with
  | nil =>
      intro hns fuel rest p st n b p' rem h
      cases fuel with
      | zero => simp [ConfYamlParseLoop] at h
      | succ g =>
          simp only [itemsEvents, List.nil_append] at h
          simp [ConfYamlParseLoop] at h
          obtain ⟨rfl, rfl, rfl⟩ := h
          refine ⟨rfl, rfl, [], by simp, rfl, ?_⟩
          intro i hi hk
          simp at hi
  | cons v its' IH =>
      intro hns fuel rest p st n b p' rem h
      have hns' : ∀ it ∈ its', it.isSeqKind = false :=
        fun it hit => hns it (List.mem_cons_of_mem _ hit)
      cases fuel with
      | zero => simp [ConfYamlParseLoop] at h
      | succ g =>
          cases v with
          | scalar s =>
              simp only [itemsEvents, valEvents, List.cons_append,
                List.nil_append, List.append_assoc] at h
              simp [ConfYamlParseLoop] at h
              obtain ⟨hb, hrem, kids', hkids', hlen', hshape'⟩ :=
                IH hns' g rest _ st (n + 1) b p' rem h
              refine ⟨hb, hrem,
                ConfNode.mk (toString n) (some s) false false [] :: kids',
                ?_, by simp [hlen'], ?_⟩
              · rw [hkids']
                apply ConfNode.eq_of_parts <;> simp
              · intro i hi hk
                cases i with
                | zero => simp [itemShape]
                | succ j =>
                    have hj : j < its'.length := by simpa using hi
                    have hjk : j < kids'.length := by simpa using hk
                    have hsh := hshape' j hj hjk
                    have harith : n + 1 + j = n + (j + 1) := by omega
                    rw [harith] at hsh
                    simpa using hsh
          | map es =>
              simp only [itemsEvents, valEvents, List.cons_append,
                List.append_assoc, List.singleton_append] at h
              simp [ConfYamlParseLoop] at h
              rcases hin : ConfYamlParseLoop g
                  (entriesEvents es ++
                    Event.mapEnd :: (itemsEvents its' ++
                      Event.seqEnd :: rest))
                  (ConfNode.mk (toString n) none true false [])
                  true false ConfState.key 0 with - | ⟨b1, sn, rem1⟩
              · rw [hin] at h; cases h
              · rw [hin] at h
                obtain ⟨-, hrem1, hname, hseq, -, hemp, -, hfk⟩ :=
                  (parse_units g).2.1 es _ _ true 0 b1 sn rem1 hin
                subst hrem1
                obtain ⟨hb, hrem, kids', hkids', hlen', hshape'⟩ :=
                  IH hns' g rest _ ConfState.key (n + 1) b p' rem h
                refine ⟨hb, hrem, sn :: kids', ?_, by simp [hlen'], ?_⟩
                · rw [hkids']
                  apply ConfNode.eq_of_parts <;> simp
                · intro i hi hk
                  cases i with
                  | zero =>
                      cases es with
                      | nil =>
                          have := hemp rfl
                          simp only [List.get, itemShape, this, Nat.add_zero]
                      | cons kv es2 =>
                          obtain ⟨k, v2⟩ := kv
                          have hval := hfk rfl rfl rfl k v2 es2 rfl
                          refine ?_
                          simp only [List.get, itemShape, Nat.add_zero]
                          exact ⟨by simpa using hname, by simpa using hseq,
                            hval⟩
                  | succ j =>
                      have hj : j < its'.length := by simpa using hi
                      have hjk : j < kids'.length := by simpa using hk
                      have hsh := hshape' j hj hjk
                      have harith : n + 1 + j = n + (j + 1) := by omega
                      rw [harith] at hsh
                      simpa using hsh
          | seq its'' =>
              have := hns (YVal.seq its'') (List.mem_cons_self _ _)
              simp [YVal.isSeqKind] at this

/-- C5 counterexample: the 3-element sequence `[a, [b], c]` (whose second
element is itself a sequence) does not give its parent children named
`"0", "1", "2"`: the inner sequence splices its element into the same
parent with the counter restarted, yielding `"0", "0", "1"`. -/
theorem sequence_indexing_c5_counterexample :
    (ConfYamlParseLoop 12
        [Event.scalar "a", Event.seqStart, Event.scalar "b", Event.seqEnd,
         Event.scalar "c", Event.seqEnd]
        (ConfNode.mk "par" none false false []) true true ConfState.key 0
      |>.map (fun r => r.2.1.children.map ConfNode.name)) =
      some ["0", "0", "1"] ∧
    (["0", "0", "1"] : List String) ≠ ["0", "1", "2"] :=
  ⟨rfl, by decide⟩

/-- C5 (amended): for every sequence of length `k` whose elements are
scalars or mappings (no directly nested sequences), the invocation in
sequence mode succeeds, consumes exactly the sequence body, and the
parent receives exactly `k` new children, appended in order and named by
the decimal strings `"0"` through `"k-1"`; an empty sequence yields zero
children. -/
theorem sequence_indexing_c5 (its : List YVal)
    (hns : ∀ it ∈ its, it.isSeqKind = false)
    (fuel : Nat) (rest : List Event) (p : ConfNode) (st : ConfState)
    (b : Bool) (p' : ConfNode) (rem : List Event)
    (h : ConfYamlParseLoop fuel (itemsEvents its ++ Event.seqEnd :: rest) p
        true true st 0 = some (b, p', rem)) :
    b = true ∧ rem = rest ∧
    ∃ kids, p' = p.withChildren (p.children ++ kids) ∧
      kids.length = its.length ∧
      kids.map ConfNode.name =
        (List.range its.length).map (fun i => toString i) := by
  obtain ⟨hb, hrem, kids, hk, hlen, hshape⟩ :=
    seq_children_characterized its hns fuel rest p st 0 b p' rem h
  refine ⟨hb, hrem, kids, hk, hlen, ?_⟩
  apply List.ext_get
  · simp [hlen]
  · intro i h1 h2
    have hi' : i < kids.length := by simpa using h1
    have hits : i < its.length := hlen ▸ hi'
    have hname := itemShape_name (hshape i hits hi')
      (hns _ (List.get_mem its i hits))
    simp only [List.get_map, List.get_range, hname, Nat.zero_add]

/-- Items for the C5/C6 witnesses: a scalar and a one-entry mapping. -/
def c5Items : List YVal := [YVal.scalar "x", YVal.map [("a", YVal.scalar "b")]]

/-- Parent for the C5 witness. -/
def c5Parent : ConfNode := ConfNode.mk "par2" none false false []

/-- Expected parent after the C5 witness run. -/
def c5Result : ConfNode :=
  ConfNode.mk "par2" none false false
    [ConfNode.mk "0" (some "x") false false [],
     ConfNode.mk "1" (some "a") true false
       [ConfNode.mk "a" (some "b") false false []]]

/-- None of the witness items is a sequence. -/
theorem c5Items_no_seq : ∀ it ∈ c5Items, YVal.isSeqKind it = false := by
  intro it hit
  rcases List.mem_cons.mp hit with rfl | hit2
  · rfl
  · rcases List.mem_cons.mp hit2 with rfl | hit3
    · rfl
    · cases hit3

/-- Witness for C5 at a concrete two-element sequence. -/
theorem sequence_indexing_c5_witness :
    (∀ it ∈ c5Items, YVal.isSeqKind it = false) ∧
    (ConfYamlParseLoop 20 (itemsEvents c5Items ++ Event.seqEnd :: [])
        c5Parent true true ConfState.key 0 = some (true, c5Result, [])) ∧
    (true = true ∧ ([] : List Event) = [] ∧
      ∃ kids, c5Result = c5Parent.withChildren (c5Parent.children ++ kids) ∧
        kids.length = c5Items.length ∧
        kids.map ConfNode.name =
          (List.range c5Items.length).map (fun i => toString i)) :=
  ⟨c5Items_no_seq, rfl,
   sequence_indexing_c5 c5Items c5Items_no_seq
     20 [] c5Parent ConfState.key true c5Result [] rfl⟩

/-- C6: for every sequence element that is a mapping whose first key is
`K` — i.e. whenever a `MAPPING_START` whose body serializes entries
`(K, v) :: es` arrives while in sequence mode, in any invocation state
whatsoever (so also inside sequences containing nested-sequence siblings,
and inside nested sequences themselves) — the node built for that element
has `is_seq = true` and `val = K` (synthesized from the first key, the
element node's `val` being unset when the first key scalar arrives), is
named by the current counter value, and is appended to the parent while
the counter advances. -/
theorem sequence_mapping_element_c6 (fuel : Nat) (k : String) (v : YVal)
    (es : List (String × YVal)) (rest : List Event) (p : ConfNode)
    (cur : Bool) (st : ConfState) (idx : Nat)
    (r : Bool × ConfNode × List Event)
    (h : ConfYamlParseLoop (fuel + 1)
        (Event.mapStart :: (entriesEvents ((k, v) :: es) ++
          Event.mapEnd :: rest)) p cur true st idx = some r) :
    ∃ sn, sn.name = toString idx ∧ sn.is_seq = true ∧ sn.val = some k ∧
      ConfYamlParseLoop fuel rest (p.withChildren (p.children ++ [sn])) cur
        true ConfState.key (idx + 1) = some r := by
  simp [ConfYamlParseLoop] at h
  rcases hin : ConfYamlParseLoop fuel
      (entriesEvents ((k, v) :: es) ++ Event.mapEnd :: rest)
      (ConfNode.mk (toString idx) none true false [])
      true false ConfState.key 0 with - | ⟨b1, sn, rem1⟩
  · rw [hin] at h; cases h
  · rw [hin] at h
    obtain ⟨-, hrem1, hname, hseq, -, -, -, hfk⟩ :=
      (parse_units fuel).2.1 ((k, v) :: es) rest _ true 0 b1 sn rem1 hin
    subst hrem1
    exact ⟨sn, by simpa using hname, by simpa using hseq,
      hfk rfl rfl rfl k v es rfl, h⟩

/-- Witness for C6: a mapping element `{a: b}` opening while in sequence
mode, with a sequence terminator still pending behind it. -/
theorem sequence_mapping_element_c6_witness :
    (ConfYamlParseLoop 10
        (Event.mapStart :: (entriesEvents [("a", YVal.scalar "b")] ++
          Event.mapEnd :: [Event.seqEnd])) c5Parent true true
        ConfState.key 0 =
      some (true, ConfNode.mk "par2" none false false
        [ConfNode.mk "0" (some "a") true false
          [ConfNode.mk "a" (some "b") false false []]], [])) ∧
    (∃ sn, sn.name = toString 0 ∧ sn.is_seq = true ∧ sn.val = some "a" ∧
      ConfYamlParseLoop 9 [Event.seqEnd]
        (c5Parent.withChildren (c5Parent.children ++ [sn])) true true
        ConfState.key 1 =
      some (true, ConfNode.mk "par2" none false false
        [ConfNode.mk "0" (some "a") true false
          [ConfNode.mk "a" (some "b") false false []]], [])) :=
  ⟨rfl,
   sequence_mapping_element_c6 9 "a" (YVal.scalar "b") [] [Event.seqEnd]
     c5Parent true ConfState.key 0
     (true, ConfNode.mk "par2" none false false
       [ConfNode.mk "0" (some "a") true false
         [ConfNode.mk "a" (some "b") false false []]], []) rfl⟩

end ConfYaml
